import Mathlib

/-!
Verification development for the PAdES-tool repository.

The repository implements a pendrive-gated PDF signing workflow:
`PDFSigner` (src/app/pdf/pdf_signer.py) reads a document, produces an
RSA-PSS signature (MGF1 over SHA-256, maximum salt length, SHA-256
digest) and appends it to the file; `PenDriveFinder`
(src/app/pendrive_detection/pendrive_detector.py) locates removable
volumes and private-key files on them; the keys-generator utility
(src/keys-generator/verify.py) derives the key-unlock secret as a bare
SHA-256 of the PIN and self-tests sign/verify.

The embedding below models the Python sources directly.  The
cryptographic library calls (`cryptography`, `hashlib`) are external to
the repository, so they are modelled from their published definitions:
RSASSA-PSS / EMSA-PSS / MGF1 follow RFC 8017 (with the maximum salt
length `emLen - hLen - 2` that `padding.PSS.MAX_LENGTH` selects), and
SHA-256 follows FIPS 180-4.  Machine integers are modelled as `Nat`
with explicit reduction modulo 2 ^ 32 where the algorithms require it;
byte strings are `List Nat` with every element below 256.  File-system
effects are modelled by explicit state passing over an association
list, and Python exceptions by `Except`.
-/

/-! ## Byte-string primitives (RFC 8017, section 4) -/

/-- I2OSP: big-endian conversion of a natural number to a byte string of
the given length (RFC 8017, section 4.1). -/
def i2osp (x : Nat) : Nat → List Nat
  | 0 => []
  | len + 1 => i2osp (x / 256) len ++ [x % 256]

/-- OS2IP: big-endian interpretation of a byte string as a natural
number (RFC 8017, section 4.2). -/
def os2ip : List Nat → Nat
  | [] => 0
  | b :: rest => b * 256 ^ rest.length + os2ip rest

/-- Square-and-multiply modular exponentiation with explicit fuel; the
fuel bounds the number of binary digits of the exponent.  This is the
model of `pow(base, exp, mod)` used by the RSA layer. -/
def powModAux : Nat → Nat → Nat → Nat → Nat
  | 0, _, _, n => 1 % n
  | fuel + 1, m, e, n =>
    if e = 0 then 1 % n
    else if e % 2 = 1 then powModAux fuel (m * m % n) (e / 2) n * m % n
    else powModAux fuel (m * m % n) (e / 2) n

/-! ## SHA-256 (FIPS 180-4), the digest pinned by the sources -/

/-- Right rotation of a 32-bit word. -/
def rotr32 (x n : Nat) : Nat := ((x >>> n) ||| (x <<< (32 - n))) &&& 4294967295

/-- The Ch function of FIPS 180-4. -/
def shaCh (x y z : Nat) : Nat := (x &&& y) ^^^ ((x ^^^ 4294967295) &&& z)

/-- The Maj function of FIPS 180-4. -/
def shaMaj (x y z : Nat) : Nat := (x &&& y) ^^^ (x &&& z) ^^^ (y &&& z)

/-- The Sigma0 function of FIPS 180-4. -/
def shaBigSigma0 (x : Nat) : Nat := rotr32 x 2 ^^^ rotr32 x 13 ^^^ rotr32 x 22

/-- The Sigma1 function of FIPS 180-4. -/
def shaBigSigma1 (x : Nat) : Nat := rotr32 x 6 ^^^ rotr32 x 11 ^^^ rotr32 x 25

/-- The sigma0 message-schedule function of FIPS 180-4. -/
def shaSmallSigma0 (x : Nat) : Nat := rotr32 x 7 ^^^ rotr32 x 18 ^^^ (x >>> 3)

/-- The sigma1 message-schedule function of FIPS 180-4. -/
def shaSmallSigma1 (x : Nat) : Nat := rotr32 x 17 ^^^ rotr32 x 19 ^^^ (x >>> 10)

/-- The 64 round constants of SHA-256. -/
def shaK : List Nat :=
  [1116352408, 1899447441, 3049323471, 3921009573, 961987163, 1508970993,
   2453635748, 2870763221, 3624381080, 310598401, 607225278, 1426881987,
   1925078388, 2162078206, 2614888103, 3248222580, 3835390401, 4022224774,
   264347078, 604807628, 770255983, 1249150122, 1555081692, 1996064986,
   2554220882, 2821834349, 2952996808, 3210313671, 3336571891, 3584528711,
   113926993, 338241895, 666307205, 773529912, 1294757372, 1396182291,
   1695183700, 1986661051, 2177026350, 2456956037, 2730485921, 2820302411,
   3259730800, 3345764771, 3516065817, 3600352804, 4094571909, 275423344,
   430227734, 506948616, 659060556, 883997877, 958139571, 1322822218,
   1537002063, 1747873779, 1955562222, 2024104815, 2227730452, 2361852424,
   2428436474, 2756734187, 3204031479, 3329325298]

/-- The initial hash value of SHA-256. -/
def shaInitH : List Nat :=
  [1779033703, 3144134277, 1013904242, 2773480762,
   1359893119, 2600822924, 528734635, 1541459225]

/-- SHA-256 message padding: append 0x80, zeros, and the 64-bit
big-endian bit length, to a multiple of 64 bytes. -/
def shaPad (msg : List Nat) : List Nat :=
  msg ++ [128] ++ List.replicate ((64 - (msg.length + 9) % 64) % 64) 0 ++
    i2osp (8 * msg.length) 8

/-- Split a byte string into 64-byte blocks (fuel-driven recursion; the
fuel is the length of the string, which always suffices). -/
def toBlocksAux : Nat → List Nat → List (List Nat)
  | 0, _ => []
  | _ + 1, [] => []
  | fuel + 1, l => l.take 64 :: toBlocksAux fuel (l.drop 64)

/-- Extend a 16-word message schedule by the given number of words. -/
def shaSchedule : Nat → List Nat → List Nat
  | 0, w => w
  | fuel + 1, w =>
    let t := w.length
    let nw := (shaSmallSigma1 (w.getD (t - 2) 0) + w.getD (t - 7) 0 +
      shaSmallSigma0 (w.getD (t - 15) 0) + w.getD (t - 16) 0) % 4294967296
    shaSchedule fuel (w ++ [nw])

/-- One round of the SHA-256 compression function over the eight-word
working state. -/
def shaRound (st : List Nat) (kw : Nat × Nat) : List Nat :=
  match st with
  | [a, b, c, d, e, f, g, h] =>
    let t1 := (h + shaBigSigma1 e + shaCh e f g + kw.1 + kw.2) % 4294967296
    let t2 := (shaBigSigma0 a + shaMaj a b c) % 4294967296
    [(t1 + t2) % 4294967296, a, b, c, (d + t1) % 4294967296, e, f, g]
  | other => other

/-- Compression of a single 64-byte block into the chaining value. -/
def shaCompress (hs : List Nat) (block : List Nat) : List Nat :=
  let w0 := (List.range 16).map (fun i => os2ip ((block.drop (4 * i)).take 4))
  let w := shaSchedule 48 w0
  let st := (shaK.zip w).foldl shaRound hs
  List.zipWith (fun x y => (x + y) % 4294967296) hs st

/-- SHA-256 of a byte string, as a 32-byte string.  Models
`hashlib.sha256(...).digest()` and `hashes.SHA256()`, which the
repository pins but which live outside src/. -/
def sha256 (msg : List Nat) : List Nat :=
  let padded := shaPad msg
  ((toBlocksAux padded.length padded).foldl shaCompress shaInitH).flatMap
    (fun w => i2osp w 4)

/-! ## Hash-function abstraction used by the PSS layer -/

/-- A hash function with a fixed output width, the shape of the
`hashes.HashAlgorithm` argument that `pdf_signer.py` and `verify.py`
pass to the PSS padding. -/
structure HashFn where
  hLen : Nat
  hash : List Nat → List Nat

/-- Well-formedness of a hash function: positive fixed output width and
byte-valued output. -/
def HashWF (H : HashFn) : Prop :=
  0 < H.hLen ∧ ∀ m : List Nat, (H.hash m).length = H.hLen ∧ ∀ b ∈ H.hash m, b < 256

/-- SHA-256 packaged as a `HashFn`. -/
def sha256HashFn : HashFn := { hLen := 32, hash := sha256 }

/-! ## EMSA-PSS and RSASSA-PSS (RFC 8017, sections 8.1 and 9.1),
the model of `padding.PSS(mgf=padding.MGF1(SHA256), MAX_LENGTH)` -/

/-- MGF1 mask generation function (RFC 8017, appendix B.2.1). -/
def mgf1 (H : HashFn) (seed : List Nat) (maskLen : Nat) : List Nat :=
  ((List.range (maskLen / H.hLen + 1)).flatMap
    (fun c => H.hash (seed ++ i2osp c 4))).take maskLen

/-- Clear, in the first octet of a byte string, the bits not selected by
the mask (step 11 of EMSA-PSS-Encode / step 9 of EMSA-PSS-Verify). -/
def maskFirst (mask : Nat) : List Nat → List Nat
  | [] => []
  | b :: rest => (b &&& mask) :: rest

/-- EMSA-PSS-Encode (RFC 8017, section 9.1.1) with the salt passed
explicitly; returns `none` when the key is too small for the salt
(the encoding error the library raises). -/
def emsaPssEncode (H : HashFn) (emBits : Nat) (M salt : List Nat) :
    Option (List Nat) :=
  let emLen := (emBits + 7) / 8
  if emLen < H.hLen + salt.length + 2 then none
  else
    let mHash := H.hash M
    let h := H.hash (List.replicate 8 0 ++ mHash ++ salt)
    let ps := List.replicate (emLen - salt.length - H.hLen - 2) 0
    let db := ps ++ 1 :: salt
    let dbMask := mgf1 H h (emLen - H.hLen - 1)
    let maskedDB :=
      maskFirst (255 >>> (8 * emLen - emBits))
        (List.zipWith (fun a b => a ^^^ b) db dbMask)
    some (maskedDB ++ h ++ [188])

/-- EMSA-PSS-Verify (RFC 8017, section 9.1.2) at a fixed salt length. -/
def emsaPssVerify (H : HashFn) (emBits : Nat) (M em : List Nat)
    (sLen : Nat) : Bool :=
  let emLen := (emBits + 7) / 8
  if emLen < H.hLen + sLen + 2 then false
  else if em.length ≠ emLen then false
  else if em.getLast? ≠ some 188 then false
  else
    let maskedDB := em.take (emLen - H.hLen - 1)
    let h := (em.drop (emLen - H.hLen - 1)).take H.hLen
    let shift := 8 * emLen - emBits
    if maskedDB.headD 0 >>> (8 - shift) ≠ 0 then false
    else
      let dbMask := mgf1 H h (emLen - H.hLen - 1)
      let db := maskFirst (255 >>> shift)
        (List.zipWith (fun a b => a ^^^ b) maskedDB dbMask)
      if db.take (emLen - H.hLen - sLen - 2) ≠
          List.replicate (emLen - H.hLen - sLen - 2) 0 then false
      else if db.getD (emLen - H.hLen - sLen - 2) 0 ≠ 1 then false
      else
        let salt := db.drop (emLen - H.hLen - sLen - 1)
        let mHash := H.hash M
        let hp := H.hash (List.replicate 8 0 ++ mHash ++ salt)
        h == hp

/-- An RSA private key as the `cryptography` library presents it: the
modulus, the private exponent, and the key size in bits. -/
structure RSAPrivateKey where
  keySize : Nat
  n : Nat
  d : Nat

/-- An RSA public key: the modulus, the public exponent, and the key
size in bits. -/
structure RSAPublicKey where
  keySize : Nat
  n : Nat
  e : Nat

/-- Byte length of a key of the given bit size. -/
def keyBytes (bits : Nat) : Nat := (bits + 7) / 8

/-- RSASSA-PSS-Sign (RFC 8017, section 8.1.1) with maximum salt length
`emLen - hLen - 2`, the choice `padding.PSS.MAX_LENGTH` makes.  The
salt randomness is passed in explicitly as a byte source. -/
def rsaPssSign (H : HashFn) (key : RSAPrivateKey) (M : List Nat)
    (rand : Nat → Nat) : Option (List Nat) :=
  let emBits := key.keySize - 1
  let emLen := (emBits + 7) / 8
  let sLen := emLen - H.hLen - 2
  let salt := (List.range sLen).map (fun i => rand i % 256)
  match emsaPssEncode H emBits M salt with
  | none => none
  | some em =>
    some (i2osp (powModAux key.keySize (os2ip em) key.d key.n)
      (keyBytes key.keySize))

/-- RSASSA-PSS-Verify (RFC 8017, section 8.1.2) with the same maximum
salt length; returns a Boolean outcome — `false` is the model of the
`InvalidSignature` exception that `verify.py` converts into its
"Invalid signature" branch. -/
def rsaPssVerify (H : HashFn) (key : RSAPublicKey) (M sig : List Nat) : Bool :=
  if sig.length ≠ keyBytes key.keySize then false
  else
    let s := os2ip sig
    if key.n ≤ s then false
    else
      let m := powModAux key.keySize s key.e key.n
      let emBits := key.keySize - 1
      let emLen := (emBits + 7) / 8
      if 256 ^ emLen ≤ m then false
      else emsaPssVerify H emBits M (i2osp m emLen) (emLen - H.hLen - 2)

/-- Validity of an RSA key pair: matching moduli and key sizes, a key
size consistent with the modulus, exponents in range, and a modulus
that is a product of two distinct primes with the private and public
exponents inverse to each other modulo both `p - 1` and `q - 1`. -/
def ValidKeyPair (priv : RSAPrivateKey) (pub : RSAPublicKey) : Prop :=
  pub.n = priv.n ∧ pub.keySize = priv.keySize ∧
  2 ^ (priv.keySize - 1) ≤ priv.n ∧ priv.n < 2 ^ priv.keySize ∧
  0 < priv.d ∧ priv.d < priv.n ∧ 0 < pub.e ∧ pub.e < priv.n ∧
  ∃ p q : Nat, p.Prime ∧ q.Prime ∧ p ≠ q ∧ priv.n = p * q ∧
    priv.d * pub.e ≡ 1 [MOD p - 1] ∧ priv.d * pub.e ≡ 1 [MOD q - 1]

/-! ## verify.py: derivation of the key-unlock secret from the PIN -/

/-- UTF-8 encoding of a string as a byte list; the model of
`pin.encode()`. -/
def utf8Bytes (s : String) : List Nat := s.toUTF8.toList.map UInt8.toNat

/-- The unlock material `hashed_pin = sha256(pin.encode()).digest()` of
src/keys-generator/verify.py, line 9: a bare, unsalted, single
application of SHA-256 to the encoded PIN. -/
def hashedPin (pin : String) : List Nat := sha256 (utf8Bytes pin)

/-! ## PDFSigner (src/app/pdf/pdf_signer.py) over a file-system model -/

/-- The Python exceptions that can surface in the modelled code paths. -/
inductive PyExn where
  | fileNotFoundError
  | permissionError
  | notADirectoryError
  | signingError
deriving DecidableEq

/-- State of one file: readable with contents, or unreadable for lack
of permission (a missing file is simply absent from the store). -/
inductive FileState where
  | readable (content : List Nat)
  | noPerm
deriving DecidableEq

/-- A file system as an association list from paths to file states. -/
abbrev FileSystem := List (String × FileState)

/-- Model of `open(path, "rb"); f.read()`: the whole content, or the
exception the open raises. -/
def readFile (fs : FileSystem) (path : String) : Except PyExn (List Nat) :=
  match fs.lookup path with
  | none => .error .fileNotFoundError
  | some (.readable c) => .ok c
  | some .noPerm => .error .permissionError

/-- Model of `open(path, "ab"); f.write(bytes)`: a single append of the
given bytes to the named file, leaving every other file untouched. -/
def appendFile (fs : FileSystem) (path : String) (bytes : List Nat) :
    FileSystem :=
  fs.map (fun entry =>
    if entry.1 = path then
      match entry.2 with
      | .readable c => (entry.1, .readable (c ++ bytes))
      | .noPerm => entry
    else entry)

/-- The `PDFSigner` class: holds the private key passed to
`__init__`. -/
structure PDFSigner where
  privateKey : RSAPrivateKey

/-- `PDFSigner._generate_signature`: read the document, sign its bytes
with PSS/MGF1/SHA-256 at maximum salt length.  Only
`FileNotFoundError` is caught (and becomes `none`); a permission
error propagates, as does a failure of the signing call itself. -/
def PDFSigner.generateSignature (signer : PDFSigner) (H : HashFn)
    (rand : Nat → Nat) (fs : FileSystem) (pdfFilePath : String) :
    Except PyExn (Option (List Nat)) :=
  match readFile fs pdfFilePath with
  | .error .fileNotFoundError => .ok none
  | .error e => .error e
  | .ok content =>
    match rsaPssSign H signer.privateKey content rand with
    | none => .error .signingError
    | some sig => .ok (some sig)

/-- `PDFSigner.sign`: generate a signature and append it to the
document; on `none` return silently; on an exception propagate it.
The result pairs the outcome with the file system after the call. -/
def PDFSigner.sign (signer : PDFSigner) (H : HashFn) (rand : Nat → Nat)
    (fs : FileSystem) (pdfFilePath : String) :
    Except PyExn Unit × FileSystem :=
  match signer.generateSignature H rand fs pdfFilePath with
  | .error e => (.error e, fs)
  | .ok none => (.ok (), fs)
  | .ok (some sig) => (.ok (), appendFile fs pdfFilePath sig)

/-! ## PenDriveFinder (src/app/pendrive_detection/pendrive_detector.py) -/

/-- One entry of a directory listing, as `os.scandir` yields it:
a name and whether the entry is a regular file. -/
structure DirEntry where
  name : String
  isFile : Bool
deriving DecidableEq

/-- State of a path in the directory model: a directory with its
top-level entries, a regular file, or a directory without read
permission. -/
inductive DirState where
  | directory (entries : List DirEntry)
  | regularFile
  | noPerm
deriving DecidableEq

/-- The directory structure as an association list from paths. -/
abbrev DirFileSystem := List (String × DirState)

/-- Model of `os.scandir(path)`: the non-recursive top-level listing,
or the exception it raises (`FileNotFoundError` for a missing path,
`NotADirectoryError` for a file, `PermissionError` for an unreadable
directory). -/
def scanDir (dfs : DirFileSystem) (path : String) :
    Except PyExn (List DirEntry) :=
  match dfs.lookup path with
  | none => .error .fileNotFoundError
  | some (.directory es) => .ok es
  | some .regularFile => .error .notADirectoryError
  | some .noPerm => .error .permissionError

/-- The filter of the finder loops:
`entry.name.endswith(".pem") and entry.is_file()`. -/
def isPemKeyFile (entry : DirEntry) : Bool :=
  List.isSuffixOf ".pem".data entry.name.data && entry.isFile

/-- `PenDriveFinder.find_pen_drive_with_private_key`: walk the volume
list in order, scan each top level, return the first volume holding a
matching regular file; `none` when the scan exhausts the list.  An
exception from `os.scandir` propagates. -/
def PenDriveFinder.findPenDriveWithPrivateKey (dfs : DirFileSystem) :
    List String → Except PyExn (Option String)
  | [] => .ok none
  | penDrive :: rest =>
    match scanDir dfs penDrive with
    | .error e => .error e
    | .ok entries =>
      if entries.any isPemKeyFile then .ok (some penDrive)
      else PenDriveFinder.findPenDriveWithPrivateKey dfs rest

/-- `PenDriveFinder.get_private_key_path`: scan a single mount point
and return the full path of the first matching entry, on the model of
`entry.path` as the directory path, a slash, and the name. -/
def PenDriveFinder.getPrivateKeyPath (dfs : DirFileSystem)
    (penDrivePath : String) : Except PyExn (Option String) :=
  match scanDir dfs penDrivePath with
  | .error e => .error e
  | .ok entries =>
    match entries.find? isPemKeyFile with
    | some entry => .ok (some (penDrivePath ++ "/" ++ entry.name))
    | none => .ok none

/-- Whether a volume both scans successfully and holds a matching key
file — the predicate the first-match characterisation is stated with. -/
def volumeHasKey (dfs : DirFileSystem) (v : String) : Bool :=
  match scanDir dfs v with
  | .ok entries => entries.any isPemKeyFile
  | .error _ => false

/-- A block device as the Linux backend sees it through pyudev: its
device node, the string value of the `removable` sysfs attribute, and
the device nodes of its partitions. -/
structure BlockDevice where
  deviceNode : String
  removableAttr : String
  partitionNodes : List String
deriving DecidableEq

/-- The Linux device state: the block disk devices, and the
device-to-mount-point map that `psutil.disk_partitions()` yields. -/
structure LinuxDeviceState where
  devices : List BlockDevice
  partitionMounts : List (String × String)
deriving DecidableEq

/-- `PenDriveFinder.__find_all_pen_drives_linux`: for every disk whose
`removable` attribute is the string `"1"`, report the mount point of
the disk node itself when that node is mounted, and otherwise the
mount points of its mounted partitions. -/
def PenDriveFinder.findAllPenDrivesLinux (st : LinuxDeviceState) :
    List String :=
  st.devices.flatMap (fun dev =>
    if dev.removableAttr = "1" then
      match st.partitionMounts.lookup dev.deviceNode with
      | some mountPoint => [mountPoint]
      | none =>
        dev.partitionNodes.filterMap
          (fun part => st.partitionMounts.lookup part)
    else [])

/-- A Windows disk drive as WMI presents it: the controller interface
type and, per partition, the associated logical-disk device IDs. -/
structure WinDiskDrive where
  interfaceType : String
  partitionLogicalDisks : List (List String)
deriving DecidableEq

/-- `PenDriveFinder.__find_all_pen_drives_win`: every logical disk
reachable from a disk drive whose interface type is `"USB"` through
the partition association chain. -/
def PenDriveFinder.findAllPenDrivesWin (drives : List WinDiskDrive) :
    List String :=
  drives.flatMap (fun drive =>
    if drive.interfaceType = "USB" then drive.partitionLogicalDisks.flatten
    else [])

/-- `PenDriveFinder.find_all_pen_drives`: dispatch on `sys.platform`;
the darwin branch is an unimplemented stub (`pass`), so it and every
unrecognised platform fall through to `return []`. -/
def PenDriveFinder.findAllPenDrives (platform : String)
    (linuxState : LinuxDeviceState) (winDrives : List WinDiskDrive) :
    List String :=
  if platform = "linux" then PenDriveFinder.findAllPenDrivesLinux linuxState
  else if platform = "win32" then PenDriveFinder.findAllPenDrivesWin winDrives
  else if platform = "darwin" then []
  else []

/-! ## Concrete material for witnesses and counterexamples -/

/-- A real 320-bit RSA private key (product of two 160-bit primes),
used to run the signing pipeline concretely. -/
def demoPriv : RSAPrivateKey :=
  { keySize := 320,
    n := 1514010733693937279457230137440512213272546740018275947924395317026429777792416278951854749325603,
    d := 441495020089794091089111878124198985425815047201457048169449654431140682844266197918788109232777 }

/-- The public half of `demoPriv`, exponent 65537. -/
def demoPub : RSAPublicKey :=
  { keySize := 320,
    n := 1514010733693937279457230137440512213272546740018275947924395317026429777792416278951854749325603,
    e := 65537 }

/-- A small concrete document (the bytes of a short PDF-like header). -/
def demoDoc : List Nat := [37, 80, 68, 70, 45, 49, 46, 52, 32, 100, 101, 109, 111]

/-- First concrete salt byte source for the randomised padding. -/
def demoRandA : Nat → Nat := fun i => 17 * i + 3

/-- Second concrete salt byte source, different from `demoRandA`. -/
def demoRandB : Nat → Nat := fun i => 91 * i + 240

/-- A tiny well-formed one-byte-output hash, used to instantiate the
universally quantified statements at a concrete input. -/
def tinyHash : HashFn :=
  { hLen := 1,
    hash := fun m => [(m.foldl (fun a b => a * 31 + b + 7) 5) % 256] }

/-- A small RSA private key over the primes 5923 and 5927, whose
validity is established by primality certificates. -/
def tinyPriv : RSAPrivateKey := { keySize := 26, n := 35105621, d := 14037509 }

/-- The public half of `tinyPriv`, exponent 5. -/
def tinyPub : RSAPublicKey := { keySize := 26, n := 35105621, e := 5 }

/-- Whether `os.scandir` succeeds on a path of the directory model. -/
def scanOk (dfs : DirFileSystem) (v : String) : Bool :=
  match scanDir dfs v with
  | .ok _ => true
  | .error _ => false

/-- The signature the tiny key produces over `demoDoc` with the salt
from `demoRandA` (computed by running the model). -/
def tinySig : List Nat := [1, 136, 204, 233]

/-- A directory model with two volumes: only the second carries a
`.pem` regular file. -/
def demoDirFS : DirFileSystem :=
  [("/mnt/a", DirState.directory [{ name := "readme.txt", isFile := true }]),
   ("/mnt/b", DirState.directory [{ name := "key.pem", isFile := true }])]

/-- A directory model with a readable key-less volume and a directory
without read permission; a path absent from it models a missing
mount point. -/
def demoDirFS2 : DirFileSystem :=
  [("/mnt/ok", DirState.directory [{ name := "notes.txt", isFile := true }]),
   ("/locked", DirState.noPerm)]

/-- A Linux device state in which a removable disk node is itself
mounted while one of its partitions is also mounted. -/
def demoLinuxState : LinuxDeviceState :=
  { devices := [{ deviceNode := "/dev/sdx", removableAttr := "1",
                  partitionNodes := ["/dev/sdx1"] }],
    partitionMounts := [("/dev/sdx", "/mnt/disk"), ("/dev/sdx1", "/mnt/part")] }

/-! ## Helper lemmas: byte conversions -/

/-- Length of an I2OSP output. -/
theorem i2osp_length (x len : Nat) : (i2osp x len).length = len := by
  induction len generalizing x with
  | zero => rfl
  | succ l ih => simp [i2osp, ih]

/-- Every byte of an I2OSP output is below 256. -/
theorem i2osp_lt_256 (x len : Nat) : ∀ b ∈ i2osp x len, b < 256 := by
  induction len generalizing x with
  | zero => simp [i2osp]
  | succ l ih =>
    intro b hb
    simp only [i2osp, List.mem_append, List.mem_singleton] at hb
    rcases hb with hb | hb
    · exact ih _ b hb
    · subst hb; exact Nat.mod_lt _ (by omega)

/-- OS2IP over an append. -/
theorem os2ip_append (a b : List Nat) :
    os2ip (a ++ b) = os2ip a * 256 ^ b.length + os2ip b := by
  induction a with
  | nil => simp [os2ip]
  | cons x t ih =>
    simp only [List.cons_append, os2ip, List.append_eq, ih, List.length_append]
    ring

/-- OS2IP is a left inverse of I2OSP up to reduction. -/
theorem os2ip_i2osp (x len : Nat) : os2ip (i2osp x len) = x % 256 ^ len := by
  induction len generalizing x with
  | zero => simp [i2osp, os2ip, Nat.mod_one]
  | succ l ih =>
    have hmm : x % (256 * 256 ^ l) = x % 256 + 256 * (x / 256 % 256 ^ l) :=
      Nat.mod_mul
    simp only [i2osp, os2ip_append, ih, os2ip, List.length_singleton,
      pow_one, pow_succ]
    calc x / 256 % 256 ^ l * 256 ^ 1 + (x % 256 * 256 ^ 0 + 0)
        = x % 256 + 256 * (x / 256 % 256 ^ l) := by ring
    _ = x % (256 * 256 ^ l) := hmm.symm
    _ = x % (256 ^ l * 256) := by rw [Nat.mul_comm]

/-- A byte string of bytes below 256 denotes a number below
256 to its length. -/
theorem os2ip_lt (l : List Nat) (h : ∀ b ∈ l, b < 256) :
    os2ip l < 256 ^ l.length := by
  induction l with
  | nil => simp [os2ip]
  | cons b t ih =>
    have hb : b < 256 := h b (by simp)
    have ht : os2ip t < 256 ^ t.length := ih (fun x hx => h x (by simp [hx]))
    simp only [os2ip, List.length_cons, pow_succ]
    calc b * 256 ^ t.length + os2ip t
        < b * 256 ^ t.length + 256 ^ t.length := by omega
    _ = (b + 1) * 256 ^ t.length := by ring
    _ ≤ 256 * 256 ^ t.length := by
        exact Nat.mul_le_mul_right _ (by omega)
    _ = 256 ^ t.length * 256 := by ring

/-- I2OSP is a left inverse of OS2IP on byte strings. -/
theorem i2osp_os2ip (l : List Nat) (h : ∀ b ∈ l, b < 256) :
    i2osp (os2ip l) l.length = l := by
  induction l using List.reverseRecOn with
  | nil => rfl
  | append_singleton ys b ih =>
    have hb : b < 256 := h b (by simp)
    have hys : ∀ x ∈ ys, x < 256 := fun x hx => h x (by simp [hx])
    have hval : os2ip (ys ++ [b]) = os2ip ys * 256 + b := by
      simp [os2ip_append, os2ip]
    have hdiv : (os2ip ys * 256 + b) / 256 = os2ip ys := by
      rw [Nat.mul_comm]
      rw [Nat.mul_add_div (by omega), Nat.div_eq_of_lt hb]
      omega
    have hmod : (os2ip ys * 256 + b) % 256 = b := by
      rw [Nat.mul_comm, Nat.mul_add_mod, Nat.mod_eq_of_lt hb]
    simp only [List.length_append, List.length_singleton, hval, i2osp,
      hdiv, hmod, ih hys]

/-! ## Helper lemmas: modular exponentiation -/

/-- Correctness of the fuelled square-and-multiply loop. -/
theorem powModAux_eq (fuel : Nat) :
    ∀ m e n : Nat, 0 < n → e < 2 ^ fuel →
      powModAux fuel m e n = m ^ e % n := by
  induction fuel with
  | zero =>
    intro m e n hn he
    interval_cases e
    simp [powModAux]
  | succ f ih =>
    intro m e n hn he
    by_cases he0 : e = 0
    · simp [powModAux, he0]
    · have hlt : e / 2 < 2 ^ f := by
        have h2 : (2 : Nat) ^ (f + 1) = 2 ^ f * 2 := by rw [pow_succ]
        omega
      have hrec : powModAux f (m * m % n) (e / 2) n = (m * m % n) ^ (e / 2) % n :=
        ih _ _ _ hn hlt
      have hsq : (m * m % n) ^ (e / 2) % n = m ^ (2 * (e / 2)) % n := by
        rw [← Nat.pow_mod]
        congr 1
        ring
      simp only [powModAux]
      rw [if_neg he0]
      by_cases hodd : e % 2 = 1
      · have he2 : e = 2 * (e / 2) + 1 := by omega
        rw [if_pos hodd, hrec, hsq]
        conv_rhs => rw [he2, pow_succ]
        rw [Nat.mod_mul_mod]
      · have he2 : e = 2 * (e / 2) := by omega
        rw [if_neg hodd, hrec, hsq, ← he2]


/-- The fuelled exponentiation always lands below the modulus. -/
theorem powModAux_lt (fuel m e n : Nat) (hn : 0 < n) :
    powModAux fuel m e n < n := by
  induction fuel generalizing m e with
  | zero => exact Nat.mod_lt _ hn
  | succ f ih =>
    simp only [powModAux]
    by_cases he0 : e = 0
    · rw [if_pos he0]; exact Nat.mod_lt _ hn
    · rw [if_neg he0]
      by_cases hodd : e % 2 = 1
      · rw [if_pos hodd]; exact Nat.mod_lt _ hn
      · rw [if_neg hodd]; exact ih _ _

/-! ## Helper lemmas: MGF1 and masking -/

/-- MGF1 produces exactly the requested number of mask bytes. -/
theorem mgf1_length (H : HashFn) (hH : HashWF H) (seed : List Nat)
    (maskLen : Nat) : (mgf1 H seed maskLen).length = maskLen := by
  obtain ⟨hpos, hspec⟩ := hH
  have hjoin :
      (((List.range (maskLen / H.hLen + 1)).flatMap
        (fun c => H.hash (seed ++ i2osp c 4)))).length
        = (maskLen / H.hLen + 1) * H.hLen := by
    rw [List.length_flatMap]
    simp only [Function.comp_def]
    have hmap : ((List.range (maskLen / H.hLen + 1)).map
        (fun c => (H.hash (seed ++ i2osp c 4)).length))
        = List.replicate (maskLen / H.hLen + 1) H.hLen := by
      apply List.eq_replicate_iff.mpr
      refine ⟨by simp, ?_⟩
      intro x hx
      simp only [List.mem_map] at hx
      obtain ⟨c, _, hc⟩ := hx
      rw [← hc, (hspec _).1]
    rw [hmap, List.sum_replicate, smul_eq_mul]
  have hge : maskLen ≤ (maskLen / H.hLen + 1) * H.hLen := by
    have := Nat.div_add_mod maskLen H.hLen
    have := Nat.mod_lt maskLen hpos
    nlinarith [Nat.div_add_mod maskLen H.hLen]
  simp only [mgf1, List.length_take, hjoin]
  omega

/-- Every MGF1 mask byte is below 256. -/
theorem mgf1_lt_256 (H : HashFn) (hH : HashWF H) (seed : List Nat)
    (maskLen : Nat) : ∀ b ∈ mgf1 H seed maskLen, b < 256 := by
  intro b hb
  simp only [mgf1] at hb
  have hb2 := List.mem_of_mem_take hb
  simp only [List.mem_flatMap, List.mem_range] at hb2
  obtain ⟨c, _, hc⟩ := hb2
  exact (hH.2 _).2 b hc

/-- Applying the same xor mask twice is the identity on byte strings of
matching length. -/
theorem zipWith_xor_cancel (a b : List Nat) (h : a.length = b.length) :
    List.zipWith (fun x y => x ^^^ y)
      (List.zipWith (fun x y => x ^^^ y) a b) b = a := by
  induction a generalizing b with
  | nil => simp
  | cons x t ih =>
    cases b with
    | nil => simp at h
    | cons y s =>
      simp only [List.zipWith_cons_cons, List.cons.injEq]
      exact ⟨Nat.xor_cancel_right y x, ih s (by simpa using h)⟩

/-- Bytes stay below 256 under pointwise xor. -/
theorem zipWith_xor_lt_256 (a : List Nat) :
    ∀ b : List Nat, (∀ x ∈ a, x < 256) → (∀ y ∈ b, y < 256) →
      ∀ z ∈ List.zipWith (fun x y => x ^^^ y) a b, z < 256 := by
  induction a with
  | nil => intro b _ _; simp
  | cons x t ih =>
    intro b ha hb
    cases b with
    | nil => simp
    | cons y s =>
      intro z hz
      simp only [List.zipWith_cons_cons, List.mem_cons] at hz
      rcases hz with hz | hz
      · subst hz
        have hx : x < 256 := ha x (by simp)
        have hy : y < 256 := hb y (by simp)
        have h8 : (256 : Nat) = 2 ^ 8 := by norm_num
        rw [h8] at hx hy ⊢
        exact Nat.xor_lt_two_pow hx hy
      · exact ih s (fun u hu => ha u (by simp [hu]))
          (fun u hu => hb u (by simp [hu])) z hz

/-! ## Helper lemmas: RSA inversion -/

/-- Fermat step: for a prime `p` and an exponent that is `1` modulo
`p - 1`, exponentiation is the identity modulo `p`. -/
theorem rsa_fermat_step (p : Nat) (hp : p.Prime) (E : Nat) (hE : 0 < E)
    (hmod : E ≡ 1 [MOD p - 1]) (m : Nat) : m ^ E ≡ m [MOD p] := by
  obtain ⟨k, hk⟩ : ∃ k, E = (p - 1) * k + 1 := by
    by_cases hp2 : p = 2
    · refine ⟨E - 1, ?_⟩
      subst hp2
      omega
    · have hp3 : 3 ≤ p := by
        have h2 := hp.two_le
        omega
      refine ⟨E / (p - 1), ?_⟩
      have hmm := hmod.symm
      unfold Nat.ModEq at hmm
      rw [Nat.mod_eq_of_lt (by omega : 1 < p - 1)] at hmm
      have hdm := Nat.div_add_mod E (p - 1)
      omega
  haveI : Fact p.Prime := ⟨hp⟩
  have hz : ((m : ZMod p)) ^ E = (m : ZMod p) := by
    by_cases hm : (m : ZMod p) = 0
    · rw [hm, hk]
      exact zero_pow (by omega)
    · rw [hk, pow_add, pow_mul, pow_one,
        ZMod.pow_card_sub_one_eq_one hm, one_pow, one_mul]
  have := (ZMod.natCast_eq_natCast_iff (m ^ E) m p).mp (by push_cast; exact hz)
  exact this

/-- RSA inversion: over a modulus that is a product of two distinct
primes, an exponent that is `1` modulo both `p - 1` and `q - 1` acts
as the identity modulo the product. -/
theorem rsa_pow_modEq (p q : Nat) (hp : p.Prime) (hq : q.Prime)
    (hpq : p ≠ q) (E : Nat) (hE : 0 < E) (hmp : E ≡ 1 [MOD p - 1])
    (hmq : E ≡ 1 [MOD q - 1]) (m : Nat) : m ^ E ≡ m [MOD p * q] := by
  have hco : Nat.Coprime p q := (Nat.coprime_primes hp hq).mpr hpq
  exact (Nat.modEq_and_modEq_iff_modEq_mul hco).mp
    ⟨rsa_fermat_step p hp E hE hmp m, rsa_fermat_step q hq E hE hmq m⟩

/-! ## Helper lemmas: first-octet masking -/

/-- Masking distributes out of an xor applied after a first masking. -/
theorem and_xor_and_mask (x y t : Nat) :
    ((x &&& t) ^^^ y) &&& t = (x ^^^ y) &&& t := by
  rw [Nat.and_xor_distrib_right, Nat.and_xor_distrib_right,
    Nat.and_assoc, Nat.and_self]

/-- A byte masked by `255 >>> shift` lies below `2 ^ (8 - shift)`. -/
theorem mask_byte_lt (shift z : Nat) (h : shift ≤ 8) :
    z &&& (255 >>> shift) < 2 ^ (8 - shift) := by
  have h1 : z &&& (255 >>> shift) ≤ 255 >>> shift := Nat.and_le_right
  have h2 : (255 : Nat) >>> shift = 255 / 2 ^ shift :=
    Nat.shiftRight_eq_div_pow 255 shift
  have h3 : (255 : Nat) / 2 ^ shift < 2 ^ (8 - shift) := by
    rw [Nat.div_lt_iff_lt_mul (Nat.two_pow_pos shift)]
    calc (255 : Nat) < 2 ^ 8 := by norm_num
    _ = 2 ^ (8 - shift) * 2 ^ shift := by
        rw [← pow_add]
        congr 1
        omega
  omega

/-- The mask `255 >>> shift` keeps the lowest bit when `shift ≤ 7`. -/
theorem one_and_mask (shift : Nat) (h : shift ≤ 7) :
    1 &&& (255 >>> shift) = 1 := by
  interval_cases shift <;> rfl

/-! ## The EMSA-PSS encode/verify roundtrip -/

/-- Core consistency of the padding layer: an EMSA-PSS encoding at the
maximum salt length is accepted by EMSA-PSS verification at the same
salt length, its bytes are genuine bytes, and it denotes a number
below `2 ^ emBits`. -/
theorem emsaPss_roundtrip (H : HashFn) (hhpos : 0 < H.hLen)
    (hhspec : ∀ m : List Nat, (H.hash m).length = H.hLen ∧ ∀ b ∈ H.hash m, b < 256)
    (emBits : Nat) (M salt : List Nat)
    (hsalt256 : ∀ b ∈ salt, b < 256)
    (hsLen : salt.length = (emBits + 7) / 8 - H.hLen - 2)
    (hgood : H.hLen + salt.length + 2 ≤ (emBits + 7) / 8)
    (em : List Nat)
    (henc : emsaPssEncode H emBits M salt = some em) :
    em.length = (emBits + 7) / 8 ∧ (∀ b ∈ em, b < 256) ∧
      os2ip em < 2 ^ emBits ∧
      emsaPssVerify H emBits M em ((emBits + 7) / 8 - H.hLen - 2) = true := by
  have hwf : HashWF H := ⟨hhpos, hhspec⟩
  -- division facts about the encoded length
  have hdm8 := Nat.div_add_mod (emBits + 7) 8
  have hlt8 : (emBits + 7) % 8 < 8 := Nat.mod_lt _ (by norm_num)
  set L : Nat := (emBits + 7) / 8 with hLdef
  have hbits : emBits ≤ 8 * L ∧ 8 * L ≤ emBits + 7 := by omega
  set shift : Nat := 8 * L - emBits with hshiftdef
  have hshift7 : shift ≤ 7 := by omega
  set hL : Nat := H.hLen with hhLdef
  have hLge : hL + salt.length + 2 ≤ L := hgood
  set mh : List Nat := H.hash M with hmh
  set hh : List Nat := H.hash (List.replicate 8 0 ++ mh ++ salt) with hhh
  have hhlen : hh.length = hL := (hhspec _).1
  have hh256 : ∀ b ∈ hh, b < 256 := (hhspec _).2
  -- concretise the encoder output
  simp only [emsaPssEncode] at henc
  rw [if_neg (by omega)] at henc
  have hps : L - salt.length - hL - 2 = 0 := by omega
  rw [hps] at henc
  simp only [List.replicate_zero, List.nil_append] at henc
  -- expose the first mask byte
  obtain ⟨dm0, dmrest, hdm, hdml⟩ :
      ∃ dm0 dmrest, mgf1 H hh (L - hL - 1) = dm0 :: dmrest ∧
        dmrest.length = L - hL - 2 := by
    have hml := mgf1_length H hwf hh (L - hL - 1)
    cases hcase : mgf1 H hh (L - hL - 1) with
    | nil => rw [hcase] at hml; simp at hml; omega
    | cons a t =>
      refine ⟨a, t, rfl, ?_⟩
      rw [hcase] at hml
      simp at hml
      omega
  rw [hdm] at henc
  rw [← hLdef, ← hmh, ← hhh, ← hshiftdef] at henc
  simp only [List.zipWith_cons_cons, maskFirst, List.cons_append,
    List.append_assoc] at henc
  have hem : em = ((1 ^^^ dm0) &&& (255 >>> shift)) ::
      (List.zipWith (fun a b => a ^^^ b) salt dmrest ++ (hh ++ [188])) :=
    (Option.some.inj henc).symm
  -- length and byte facts about the encoding
  have hrestlen : (List.zipWith (fun a b => a ^^^ b) salt dmrest).length
      = salt.length := by
    rw [List.length_zipWith]
    omega
  have hrest256 : ∀ b ∈ List.zipWith (fun a b => a ^^^ b) salt dmrest,
      b < 256 := by
    apply zipWith_xor_lt_256 salt dmrest hsalt256
    intro y hy
    exact mgf1_lt_256 H hwf hh (L - hL - 1) y
      (by rw [hdm]; exact List.mem_cons_of_mem _ hy)
  have hb0lt := mask_byte_lt shift (1 ^^^ dm0) (by omega)
  have hem256 : ∀ b ∈ em, b < 256 := by
    rw [hem]
    intro b hb
    rcases List.mem_cons.mp hb with hb | hb
    · subst hb
      have h28 : (2 : Nat) ^ (8 - shift) ≤ 2 ^ 8 :=
        Nat.pow_le_pow_right (by norm_num) (by omega)
      have : (2 : Nat) ^ 8 = 256 := by norm_num
      omega
    · rcases List.mem_append.mp hb with hb | hb
      · exact hrest256 b hb
      · rcases List.mem_append.mp hb with hb | hb
        · exact hh256 b hb
        · simp at hb
          omega
  have hemlen : em.length = L := by
    rw [hem]
    simp only [List.length_cons, List.length_append, hrestlen, hhlen,
      List.length_singleton, List.length_nil]
    omega
  -- the encoding denotes a number below 2 ^ emBits
  have htail : (List.zipWith (fun a b => a ^^^ b) salt dmrest
      ++ (hh ++ [188])).length = L - 1 := by
    simp only [List.length_cons, List.length_append, hrestlen, hhlen,
      List.length_singleton, List.length_nil]
    omega
  have htail256 : ∀ b ∈ List.zipWith (fun a b => a ^^^ b) salt dmrest
      ++ (hh ++ [188]), b < 256 := by
    intro b hb
    rcases List.mem_append.mp hb with hb | hb
    · exact hrest256 b hb
    · rcases List.mem_append.mp hb with hb | hb
      · exact hh256 b hb
      · simp at hb
        omega
  have hosem : os2ip em < 2 ^ emBits := by
    rw [hem]
    simp only [os2ip]
    rw [htail]
    have h1 : os2ip (List.zipWith (fun a b => a ^^^ b) salt dmrest
        ++ (hh ++ [188])) < 256 ^ (L - 1) := by
      have h2 := os2ip_lt _ htail256
      rwa [htail] at h2
    have hpow : (256 : Nat) ^ (L - 1) = 2 ^ (8 * (L - 1)) := by
      rw [show (256 : Nat) = 2 ^ 8 from by norm_num, ← pow_mul]
    have hfin : 2 ^ (8 - shift) * 2 ^ (8 * (L - 1)) = 2 ^ emBits := by
      rw [← pow_add]
      congr 1
      omega
    calc ((1 ^^^ dm0) &&& 255 >>> shift) * 256 ^ (L - 1) +
        os2ip (List.zipWith (fun a b => a ^^^ b) salt dmrest ++ (hh ++ [188]))
        < ((1 ^^^ dm0) &&& 255 >>> shift) * 256 ^ (L - 1) + 256 ^ (L - 1) := by
          omega
    _ = (((1 ^^^ dm0) &&& 255 >>> shift) + 1) * 256 ^ (L - 1) := by ring
    _ ≤ 2 ^ (8 - shift) * 256 ^ (L - 1) := Nat.mul_le_mul_right _ (by omega)
    _ = 2 ^ (8 - shift) * 2 ^ (8 * (L - 1)) := by rw [hpow]
    _ = 2 ^ emBits := hfin
  refine ⟨hemlen, hem256, hosem, ?_⟩
  -- run the verifier over the concrete encoding
  simp only [emsaPssVerify]
  rw [← hLdef, ← hhLdef, ← hmh, ← hshiftdef]
  rw [if_neg (by omega : ¬ L < hL + (L - hL - 2) + 2)]
  rw [if_neg (not_not_intro hemlen)]
  have hlast : em.getLast? = some 188 := by
    rw [hem, show ((1 ^^^ dm0) &&& (255 >>> shift)) ::
        (List.zipWith (fun a b => a ^^^ b) salt dmrest ++ (hh ++ [188])) =
        (((1 ^^^ dm0) &&& (255 >>> shift)) ::
          (List.zipWith (fun a b => a ^^^ b) salt dmrest ++ hh)) ++ [188]
      from by simp [List.cons_append, List.append_assoc]]
    exact List.getLast?_concat _
  rw [if_neg (not_not_intro hlast)]
  have htake : em.take (L - hL - 1) = ((1 ^^^ dm0) &&& (255 >>> shift)) ::
      List.zipWith (fun a b => a ^^^ b) salt dmrest := by
    rw [hem,
      show ((1 ^^^ dm0) &&& (255 >>> shift)) ::
        (List.zipWith (fun a b => a ^^^ b) salt dmrest ++ (hh ++ [188])) =
        (((1 ^^^ dm0) &&& (255 >>> shift)) ::
          List.zipWith (fun a b => a ^^^ b) salt dmrest) ++ (hh ++ [188])
      from rfl]
    apply List.take_left'
    simp only [List.length_cons, hrestlen]
    omega
  have hdropL : (em.drop (L - hL - 1)).take hL = hh := by
    rw [hem,
      show ((1 ^^^ dm0) &&& (255 >>> shift)) ::
        (List.zipWith (fun a b => a ^^^ b) salt dmrest ++ (hh ++ [188])) =
        (((1 ^^^ dm0) &&& (255 >>> shift)) ::
          List.zipWith (fun a b => a ^^^ b) salt dmrest) ++ (hh ++ [188])
      from rfl]
    rw [List.drop_left' (by simp only [List.length_cons, hrestlen]; omega)]
    exact List.take_left' hhlen
  rw [htake, hdropL, hdm]
  simp only [List.headD_cons]
  have hb0z : ((1 ^^^ dm0) &&& 255 >>> shift) >>> (8 - shift) = 0 := by
    rw [Nat.shiftRight_eq_div_pow]
    exact Nat.div_eq_of_lt hb0lt
  rw [if_neg (not_not_intro hb0z)]
  simp only [List.zipWith_cons_cons, maskFirst]
  have hcancel : List.zipWith (fun a b => a ^^^ b)
      (List.zipWith (fun a b => a ^^^ b) salt dmrest) dmrest = salt :=
    zipWith_xor_cancel salt dmrest (by omega)
  rw [hcancel]
  have hfirst : (((1 ^^^ dm0) &&& 255 >>> shift) ^^^ dm0) &&& 255 >>> shift
      = 1 := by
    rw [and_xor_and_mask, Nat.xor_cancel_right, one_and_mask shift hshift7]
  rw [hfirst]
  have hidx0 : L - hL - (L - hL - 2) - 2 = 0 := by omega
  have hidx1 : L - hL - (L - hL - 2) - 1 = 1 := by omega
  rw [hidx0, hidx1]
  rw [if_neg (by simp)]
  rw [if_neg (by simp)]
  simp only [List.drop_succ_cons, List.drop_zero]
  rw [← hhh]
  simp

/-- A valid key pair makes `x ↦ x ^ (d * e) mod n` the identity below
the modulus. -/
theorem validKeyPair_inverts (priv : RSAPrivateKey) (pub : RSAPublicKey)
    (hk : ValidKeyPair priv pub) (m : Nat) (hm : m < priv.n) :
    m ^ (priv.d * pub.e) % priv.n = m := by
  obtain ⟨hpn, hpks, hn2, hnlt, hd0, hdn, he0, hen, p, q, hp, hq, hpq,
    hnpq, hmp, hmq⟩ := hk
  have hE : 0 < priv.d * pub.e := Nat.mul_pos hd0 he0
  have hme := rsa_pow_modEq p q hp hq hpq _ hE hmp hmq m
  rw [← hnpq] at hme
  unfold Nat.ModEq at hme
  rw [hme, Nat.mod_eq_of_lt hm]

/-- Sign-then-verify correctness of the modelled RSASSA-PSS pipeline:
a signature produced with the private key of a valid pair verifies
with the public key over the same document, any hash and any salt
randomness. -/
theorem rsaPss_sign_verify (H : HashFn) (hH : HashWF H)
    (priv : RSAPrivateKey) (pub : RSAPublicKey) (hk : ValidKeyPair priv pub)
    (M : List Nat) (rand : Nat → Nat) (sig : List Nat)
    (hs : rsaPssSign H priv M rand = some sig) :
    rsaPssVerify H pub M sig = true := by
  have hinv := validKeyPair_inverts priv pub hk
  obtain ⟨hhpos, hhspec⟩ := hH
  have hk2 := hk
  obtain ⟨hpn, hpks, hn2, hnlt, hd0, hdn, he0, hen, -⟩ := hk2
  have hn0 : 0 < priv.n := Nat.lt_of_lt_of_le (Nat.two_pow_pos _) hn2
  simp only [rsaPssSign] at hs
  cases henc : emsaPssEncode H (priv.keySize - 1) M
      ((List.range ((priv.keySize - 1 + 7) / 8 - H.hLen - 2)).map
        (fun i => rand i % 256)) with
  | none =>
    rw [henc] at hs
    exact absurd hs (by simp)
  | some em =>
    rw [henc] at hs
    simp only [Option.some.injEq] at hs
    subst hs
    -- facts about the salt
    have hsalt256 : ∀ b ∈ (List.range ((priv.keySize - 1 + 7) / 8 - H.hLen - 2)).map
        (fun i => rand i % 256), b < 256 := by
      intro b hb
      simp only [List.mem_map] at hb
      obtain ⟨i, _, hi⟩ := hb
      rw [← hi]
      exact Nat.mod_lt _ (by norm_num)
    have hsaltlen : ((List.range ((priv.keySize - 1 + 7) / 8 - H.hLen - 2)).map
        (fun i => rand i % 256)).length
        = (priv.keySize - 1 + 7) / 8 - H.hLen - 2 := by
      simp
    have hgood : H.hLen + ((List.range ((priv.keySize - 1 + 7) / 8 - H.hLen - 2)).map
        (fun i => rand i % 256)).length + 2 ≤ (priv.keySize - 1 + 7) / 8 := by
      by_contra hcon
      push_neg at hcon
      simp only [emsaPssEncode] at henc
      rw [if_pos (by omega)] at henc
      exact absurd henc (by simp)
    obtain ⟨hemlen, hem256, hosem, hver⟩ :=
      emsaPss_roundtrip H hhpos hhspec (priv.keySize - 1) M _ hsalt256
        hsaltlen hgood em henc
    -- the RSA layer
    have hm0 : os2ip em < priv.n := Nat.lt_of_lt_of_le hosem hn2
    have hseq : powModAux priv.keySize (os2ip em) priv.d priv.n
        = (os2ip em) ^ priv.d % priv.n :=
      powModAux_eq _ _ _ _ hn0 (Nat.lt_trans hdn hnlt)
    have hslt : powModAux priv.keySize (os2ip em) priv.d priv.n < priv.n :=
      powModAux_lt _ _ _ _ hn0
    -- byte-length facts
    have hdmA := Nat.div_add_mod (priv.keySize - 1 + 7) 8
    have hltA : (priv.keySize - 1 + 7) % 8 < 8 := Nat.mod_lt _ (by norm_num)
    have hdmB := Nat.div_add_mod (priv.keySize + 7) 8
    have hltB : (priv.keySize + 7) % 8 < 8 := Nat.mod_lt _ (by norm_num)
    have h256K : (256 : Nat) ^ keyBytes priv.keySize
        = 2 ^ (8 * keyBytes priv.keySize) := by
      rw [show (256 : Nat) = 2 ^ 8 from by norm_num, ← pow_mul]
    have h256L : (256 : Nat) ^ ((priv.keySize - 1 + 7) / 8)
        = 2 ^ (8 * ((priv.keySize - 1 + 7) / 8)) := by
      rw [show (256 : Nat) = 2 ^ 8 from by norm_num, ← pow_mul]
    have hsK : powModAux priv.keySize (os2ip em) priv.d priv.n
        < 256 ^ keyBytes priv.keySize := by
      have h1 : priv.keySize ≤ 8 * keyBytes priv.keySize := by
        unfold keyBytes
        omega
      have h2 : (2 : Nat) ^ priv.keySize ≤ 2 ^ (8 * keyBytes priv.keySize) :=
        Nat.pow_le_pow_right (by norm_num) h1
      omega
    -- run the verifier
    simp only [rsaPssVerify]
    rw [hpn, hpks]
    rw [if_neg (not_not_intro (i2osp_length _ _))]
    rw [show os2ip (i2osp (powModAux priv.keySize (os2ip em) priv.d priv.n)
        (keyBytes priv.keySize))
        = powModAux priv.keySize (os2ip em) priv.d priv.n from by
      rw [os2ip_i2osp]
      exact Nat.mod_eq_of_lt hsK]
    rw [if_neg (Nat.not_le.mpr hslt)]
    have hm : powModAux priv.keySize
        (powModAux priv.keySize (os2ip em) priv.d priv.n) pub.e priv.n
        = os2ip em := by
      rw [powModAux_eq _ _ _ _ hn0 (Nat.lt_trans hen hnlt), hseq,
        ← Nat.pow_mod, ← pow_mul]
      exact hinv _ hm0
    rw [hm]
    have hosL : os2ip em < 256 ^ ((priv.keySize - 1 + 7) / 8) := by
      have h1 : priv.keySize - 1 ≤ 8 * ((priv.keySize - 1 + 7) / 8) := by omega
      have h2 : (2 : Nat) ^ (priv.keySize - 1)
          ≤ 2 ^ (8 * ((priv.keySize - 1 + 7) / 8)) :=
        Nat.pow_le_pow_right (by norm_num) h1
      omega
    rw [if_neg (Nat.not_le.mpr hosL)]
    rw [show i2osp (os2ip em) ((priv.keySize - 1 + 7) / 8) = em from by
      rw [← hemlen]
      exact i2osp_os2ip em hem256]
    exact hver

/-! ## Helper lemmas: SHA-256 output width -/

/-- One compression round preserves the width of the working state. -/
theorem shaRound_length (st : List Nat) (kw : Nat × Nat) :
    (shaRound st kw).length = st.length := by
  unfold shaRound
  split
  · simp
  · rfl

/-- Folding rounds preserves the width of the working state. -/
theorem foldl_shaRound_length (l : List (Nat × Nat)) :
    ∀ st : List Nat, (l.foldl shaRound st).length = st.length := by
  induction l with
  | nil => intro st; rfl
  | cons x t ih =>
    intro st
    simp only [List.foldl_cons]
    rw [ih, shaRound_length]

/-- Block compression preserves the width of the chaining value. -/
theorem shaCompress_length (hs block : List Nat) :
    (shaCompress hs block).length = hs.length := by
  simp only [shaCompress]
  rw [List.length_zipWith, foldl_shaRound_length]
  simp

/-- Folding blocks preserves the width of the chaining value. -/
theorem foldl_shaCompress_length (blocks : List (List Nat)) :
    ∀ hs : List Nat, (blocks.foldl shaCompress hs).length = hs.length := by
  induction blocks with
  | nil => intro hs; rfl
  | cons b t ih =>
    intro hs
    simp only [List.foldl_cons]
    rw [ih, shaCompress_length]

/-- Serialising a word list yields four bytes per word. -/
theorem flatMap_i2osp4_length (l : List Nat) :
    (l.flatMap (fun w => i2osp w 4)).length = 4 * l.length := by
  induction l with
  | nil => rfl
  | cons x t ih =>
    simp only [List.flatMap_cons, List.length_append, ih, i2osp_length,
      List.length_cons]
    omega

/-- SHA-256 always produces exactly 32 bytes. -/
theorem sha256_length (msg : List Nat) : (sha256 msg).length = 32 := by
  simp only [sha256]
  rw [flatMap_i2osp4_length, foldl_shaCompress_length]
  rfl

/-! ## Claim theorems: removable-media locator -/

/-- C7: on an operating-system family with no implemented backend (for
example darwin), `find_all_pen_drives` deterministically returns the
empty list, whatever the device state is; the unsupported-OS case is
never an error outcome. -/
theorem claim_C7_darwin_returns_empty (linuxState : LinuxDeviceState)
    (winDrives : List WinDiskDrive) :
    PenDriveFinder.findAllPenDrives "darwin" linuxState winDrives = [] ∧
    PenDriveFinder.findAllPenDrives "someOtherOS" linuxState winDrives = [] := by
  constructor <;> rfl

/-- C9 counterexample: on a removable disk whose own device node is
mounted while one of its partitions is also mounted, the Linux backend
reports only the whole-disk mount point and omits the mounted
partition, contradicting the claim that each mounted partition is
reported. -/
theorem claim_C9_counterexample :
    PenDriveFinder.findAllPenDrivesLinux demoLinuxState = ["/mnt/disk"] ∧
    ¬ ("/mnt/part" ∈ PenDriveFinder.findAllPenDrivesLinux demoLinuxState) := by
  constructor
  · rfl
  · decide

/-- C9 amended: the Linux backend reports a mount point exactly when
some listed disk has its `removable` attribute equal to `"1"` and
either the disk node itself is mounted there, or the disk node is not
mounted at all and one of its partitions is mounted there.  In
particular a device is reported only if its removable attribute is
true, and mounted partitions are reported only when the whole-disk
node is unmounted. -/
theorem claim_C9_linux_backend (st : LinuxDeviceState) (mp : String) :
    mp ∈ PenDriveFinder.findAllPenDrivesLinux st ↔
      ∃ dev ∈ st.devices, dev.removableAttr = "1" ∧
        (st.partitionMounts.lookup dev.deviceNode = some mp ∨
          (st.partitionMounts.lookup dev.deviceNode = none ∧
            ∃ part ∈ dev.partitionNodes,
              st.partitionMounts.lookup part = some mp)) := by
  unfold PenDriveFinder.findAllPenDrivesLinux
  rw [List.mem_flatMap]
  constructor
  · rintro ⟨dev, hdev, hmem⟩
    refine ⟨dev, hdev, ?_⟩
    by_cases hrem : dev.removableAttr = "1"
    · rw [if_pos hrem] at hmem
      refine ⟨hrem, ?_⟩
      cases hlk : st.partitionMounts.lookup dev.deviceNode with
      | some mp2 =>
        rw [hlk] at hmem
        simp only [List.mem_singleton] at hmem
        subst hmem
        exact Or.inl rfl
      | none =>
        rw [hlk] at hmem
        refine Or.inr ⟨rfl, ?_⟩
        simp only [List.mem_filterMap] at hmem
        obtain ⟨part, hpart, hlk2⟩ := hmem
        exact ⟨part, hpart, hlk2⟩
    · rw [if_neg hrem] at hmem
      simp at hmem
  · rintro ⟨dev, hdev, hrem, hcase⟩
    refine ⟨dev, hdev, ?_⟩
    rw [if_pos hrem]
    rcases hcase with hlk | ⟨hlk, part, hpart, hlk2⟩
    · rw [hlk]
      simp
    · rw [hlk]
      simp only [List.mem_filterMap]
      exact ⟨part, hpart, hlk2⟩

/-! ## Helper lemmas: unfolding the finder loop -/

/-- The finder on an empty volume list yields "not found". -/
theorem findPenDrive_nil (dfs : DirFileSystem) :
    PenDriveFinder.findPenDriveWithPrivateKey dfs [] = .ok none := rfl

/-- The finder on a volume that scans successfully either stops at that
volume or recurses. -/
theorem findPenDrive_cons_ok (dfs : DirFileSystem) (v : String)
    (rest : List String) (entries : List DirEntry)
    (hs : scanDir dfs v = .ok entries) :
    PenDriveFinder.findPenDriveWithPrivateKey dfs (v :: rest)
      = if entries.any isPemKeyFile = true then .ok (some v)
        else PenDriveFinder.findPenDriveWithPrivateKey dfs rest := by
  conv_lhs => unfold PenDriveFinder.findPenDriveWithPrivateKey
  rw [hs]

/-- The finder propagates a scan failure on the volume it is visiting. -/
theorem findPenDrive_cons_error (dfs : DirFileSystem) (v : String)
    (rest : List String) (e : PyExn) (hs : scanDir dfs v = .error e) :
    PenDriveFinder.findPenDriveWithPrivateKey dfs (v :: rest) = .error e := by
  conv_lhs => unfold PenDriveFinder.findPenDriveWithPrivateKey
  rw [hs]

/-! ## Claim theorems: key artifact finder -/

/-- C5: when every volume in the list scans successfully, the finder
returns exactly the first volume, in input order, whose non-recursive
top-level listing holds a regular file with the `.pem` suffix, and
`none` when no volume has one. -/
theorem claim_C5_first_volume_with_key (dfs : DirFileSystem)
    (vs : List String) (hok : ∀ v ∈ vs, scanOk dfs v = true) :
    PenDriveFinder.findPenDriveWithPrivateKey dfs vs
      = .ok (vs.find? (fun v => volumeHasKey dfs v)) := by
  induction vs with
  | nil => rfl
  | cons v rest ih =>
    have hv := hok v (by simp)
    cases hs : scanDir dfs v with
    | error e =>
      unfold scanOk at hv
      rw [hs] at hv
      simp at hv
    | ok entries =>
      have hkey : volumeHasKey dfs v = entries.any isPemKeyFile := by
        unfold volumeHasKey
        rw [hs]
      rw [findPenDrive_cons_ok dfs v rest entries hs]
      by_cases hany : entries.any isPemKeyFile = true
      · rw [if_pos hany, List.find?_cons_of_pos _ (by rw [hkey]; exact hany)]
      · rw [if_neg hany,
          List.find?_cons_of_neg _ (by rw [hkey]; exact hany),
          ih (fun u hu => hok u (by simp [hu]))]

/-- C5 witness: over the volumes `/mnt/a` and `/mnt/b` where only
`/mnt/b` holds `key.pem`, the finder returns `/mnt/b`; over the
key-less volume alone it returns `none`. -/
theorem claim_C5_witness :
    PenDriveFinder.findPenDriveWithPrivateKey demoDirFS ["/mnt/a", "/mnt/b"]
      = .ok (some "/mnt/b") ∧
    PenDriveFinder.findPenDriveWithPrivateKey demoDirFS ["/mnt/a"]
      = .ok none := by
  constructor
  · rw [claim_C5_first_volume_with_key demoDirFS ["/mnt/a", "/mnt/b"]
      (by decide)]
    rfl
  · rw [claim_C5_first_volume_with_key demoDirFS ["/mnt/a"] (by decide)]
    rfl

/-- C10: the finder operations are not total over arbitrary paths: a
failing directory scan before any match propagates its error instead
of producing "not found", for both the multi-volume finder and the
single-volume key-path lookup. -/
theorem claim_C10_scan_errors_propagate :
    (∀ (dfs : DirFileSystem) (pre : List String) (p : String)
      (post : List String) (e : PyExn),
      (∀ u ∈ pre, scanOk dfs u = true ∧ volumeHasKey dfs u = false) →
      scanDir dfs p = .error e →
      PenDriveFinder.findPenDriveWithPrivateKey dfs (pre ++ p :: post)
        = .error e) ∧
    (∀ (dfs : DirFileSystem) (p : String) (e : PyExn),
      scanDir dfs p = .error e →
      PenDriveFinder.getPrivateKeyPath dfs p = .error e) := by
  constructor
  · intro dfs pre p post e hpre hp
    induction pre with
    | nil =>
      rw [List.nil_append]
      exact findPenDrive_cons_error dfs p post e hp
    | cons u rest ih =>
      obtain ⟨hu1, hu2⟩ := hpre u (by simp)
      cases hs : scanDir dfs u with
      | error e2 =>
        unfold scanOk at hu1
        rw [hs] at hu1
        simp at hu1
      | ok entries =>
        have hkey : entries.any isPemKeyFile = false := by
          unfold volumeHasKey at hu2
          rw [hs] at hu2
          exact hu2
        rw [List.cons_append, findPenDrive_cons_ok dfs u _ entries hs,
          if_neg (by rw [hkey]; simp)]
        exact ih (fun w hw => hpre w (by simp [hw]))
  · intro dfs p e hp
    unfold PenDriveFinder.getPrivateKeyPath
    rw [hp]

/-- C10 witness: a missing volume path makes the finder raise
`FileNotFoundError` after a clean key-less volume, and a directory
without read permission makes the key-path lookup raise
`PermissionError`. -/
theorem claim_C10_witness :
    PenDriveFinder.findPenDriveWithPrivateKey demoDirFS2
      ["/mnt/ok", "/missing"] = .error .fileNotFoundError ∧
    PenDriveFinder.getPrivateKeyPath demoDirFS2 "/locked"
      = .error .permissionError := by
  constructor
  · exact claim_C10_scan_errors_propagate.1 demoDirFS2 ["/mnt/ok"] "/missing"
      [] .fileNotFoundError (by decide) rfl
  · exact claim_C10_scan_errors_propagate.2 demoDirFS2 "/locked"
      .permissionError rfl

/-! ## Helper lemmas: the file-system model -/

/-- Effect of the append on lookups: the target path maps to its state
with the bytes appended to readable content; every other path is
untouched. -/
theorem lookup_appendFile (fs : FileSystem) (path other : String)
    (bytes : List Nat) :
    (appendFile fs path bytes).lookup other =
      if other = path then
        (fs.lookup other).map (fun st =>
          match st with
          | FileState.readable c => FileState.readable (c ++ bytes)
          | FileState.noPerm => FileState.noPerm)
      else fs.lookup other := by
  induction fs with
  | nil => simp [appendFile]
  | cons entry rest ih =>
    obtain ⟨q, st⟩ := entry
    have hmap : appendFile ((q, st) :: rest) path bytes
        = (if q = path then
            match st with
            | FileState.readable c => (q, FileState.readable (c ++ bytes))
            | FileState.noPerm => (q, st)
          else (q, st)) :: appendFile rest path bytes := rfl
    rw [hmap]
    by_cases ho : other = q
    · subst ho
      by_cases hq : other = path
      · rw [if_pos hq, if_pos hq]
        cases st with
        | readable c => simp
        | noPerm => simp
      · rw [if_neg hq, if_neg hq]
        simp
    · have hbeq : (other == q) = false := by
        simp [ho]
      by_cases hq : q = path
      · rw [if_pos hq]
        cases st with
        | readable c => simp [List.lookup_cons, hbeq, ih]
        | noPerm => simp [List.lookup_cons, hbeq, ih]
      · rw [if_neg hq]
        simp [List.lookup_cons, hbeq, ih]

/-- Appending to a readable file appends to its content. -/
theorem readFile_appendFile_self (fs : FileSystem) (path : String)
    (content bytes : List Nat) (h : readFile fs path = .ok content) :
    readFile (appendFile fs path bytes) path = .ok (content ++ bytes) := by
  unfold readFile at h ⊢
  rw [lookup_appendFile, if_pos rfl]
  cases hlk : fs.lookup path with
  | none =>
    rw [hlk] at h
    exact Except.noConfusion h
  | some st =>
    rw [hlk] at h
    cases st with
    | readable c =>
      have hc : c = content := by simpa using h
      subst hc
      rfl
    | noPerm => exact Except.noConfusion h

/-- Appending to one file leaves every other file unchanged. -/
theorem readFile_appendFile_frame (fs : FileSystem) (path other : String)
    (bytes : List Nat) (h : other ≠ path) :
    readFile (appendFile fs path bytes) other = readFile fs other := by
  unfold readFile
  rw [lookup_appendFile, if_neg h]

/-! ## Helper lemmas: unfolding the signer -/

/-- A missing document is the one condition `_generate_signature`
catches; it returns `None`. -/
theorem generateSignature_notFound (signer : PDFSigner) (H : HashFn)
    (rand : Nat → Nat) (fs : FileSystem) (path : String)
    (h : readFile fs path = .error .fileNotFoundError) :
    signer.generateSignature H rand fs path = .ok none := by
  unfold PDFSigner.generateSignature
  rw [h]

/-- A permission failure on the read is not caught and propagates. -/
theorem generateSignature_noPerm (signer : PDFSigner) (H : HashFn)
    (rand : Nat → Nat) (fs : FileSystem) (path : String)
    (h : readFile fs path = .error .permissionError) :
    signer.generateSignature H rand fs path = .error .permissionError := by
  unfold PDFSigner.generateSignature
  rw [h]

/-- When generation yields `None`, `sign` returns silently without
touching the file system. -/
theorem sign_of_generate_none (signer : PDFSigner) (H : HashFn)
    (rand : Nat → Nat) (fs : FileSystem) (path : String)
    (h : signer.generateSignature H rand fs path = .ok none) :
    signer.sign H rand fs path = (.ok (), fs) := by
  unfold PDFSigner.sign
  rw [h]

/-- When generation raises, `sign` propagates the exception without
touching the file system. -/
theorem sign_of_generate_error (signer : PDFSigner) (H : HashFn)
    (rand : Nat → Nat) (fs : FileSystem) (path : String) (e : PyExn)
    (h : signer.generateSignature H rand fs path = .error e) :
    signer.sign H rand fs path = (.error e, fs) := by
  unfold PDFSigner.sign
  rw [h]

/-- When generation produces a signature, `sign` appends exactly those
bytes to the document. -/
theorem sign_of_generate_some (signer : PDFSigner) (H : HashFn)
    (rand : Nat → Nat) (fs : FileSystem) (path : String) (sig : List Nat)
    (h : signer.generateSignature H rand fs path = .ok (some sig)) :
    signer.sign H rand fs path = (.ok (), appendFile fs path sig) := by
  unfold PDFSigner.sign
  rw [h]

/-! ## Claim theorems: signer error handling and append effect -/

/-- C2 counterexample: on a document whose read fails with a permission
error, the signing path does not return the `DocumentUnreadable`
outcome (the `None` that `_generate_signature` produces for a missing
file); it propagates a raised `PermissionError` instead, because the
`except` clause catches `FileNotFoundError` only. -/
theorem claim_C2_counterexample :
    PDFSigner.generateSignature ⟨tinyPriv⟩ tinyHash demoRandA
        [("doc.pdf", FileState.noPerm)] "doc.pdf"
      = .error .permissionError ∧
    (Except.error PyExn.permissionError :
        Except PyExn (Option (List Nat))) ≠ .ok none ∧
    PDFSigner.sign ⟨tinyPriv⟩ tinyHash demoRandA
        [("doc.pdf", FileState.noPerm)] "doc.pdf"
      = (.error .permissionError, [("doc.pdf", FileState.noPerm)]) := by
  refine ⟨rfl, ?_, ?_⟩
  · intro h
    exact Except.noConfusion h
  · exact sign_of_generate_error ⟨tinyPriv⟩ tinyHash demoRandA
      [("doc.pdf", FileState.noPerm)] "doc.pdf" .permissionError rfl

/-- C2 amended: a missing document makes the signer return the
`DocumentUnreadable` outcome (`None`) and perform no write, while a
permission-denied document makes it propagate the raised
`PermissionError` to its caller — also with no write to the
document. -/
theorem claim_C2_unreadable_document (signer : PDFSigner) (H : HashFn)
    (rand : Nat → Nat) (fs : FileSystem) (path : String) :
    (readFile fs path = .error .fileNotFoundError →
      signer.generateSignature H rand fs path = .ok none ∧
      signer.sign H rand fs path = (.ok (), fs)) ∧
    (readFile fs path = .error .permissionError →
      signer.sign H rand fs path = (.error .permissionError, fs)) := by
  constructor
  · intro h
    have hg := generateSignature_notFound signer H rand fs path h
    exact ⟨hg, sign_of_generate_none signer H rand fs path hg⟩
  · intro h
    exact sign_of_generate_error signer H rand fs path _
      (generateSignature_noPerm signer H rand fs path h)

/-- C2 witness: the amended statement at concrete states — an absent
file yields the silent `None` outcome with the file system unchanged,
and an unreadable file propagates `PermissionError` with the file
system unchanged. -/
theorem claim_C2_witness :
    PDFSigner.generateSignature ⟨tinyPriv⟩ tinyHash demoRandA []
      "missing.pdf" = .ok none ∧
    PDFSigner.sign ⟨tinyPriv⟩ tinyHash demoRandA [] "missing.pdf"
      = (.ok (), []) ∧
    PDFSigner.sign ⟨tinyPriv⟩ tinyHash demoRandA
      [("locked.pdf", FileState.noPerm)] "locked.pdf"
      = (.error .permissionError, [("locked.pdf", FileState.noPerm)]) :=
  ⟨((claim_C2_unreadable_document ⟨tinyPriv⟩ tinyHash demoRandA []
      "missing.pdf").1 rfl).1,
   ((claim_C2_unreadable_document ⟨tinyPriv⟩ tinyHash demoRandA []
      "missing.pdf").1 rfl).2,
   (claim_C2_unreadable_document ⟨tinyPriv⟩ tinyHash demoRandA
      [("locked.pdf", FileState.noPerm)] "locked.pdf").2 rfl⟩

/-- C3: whenever signature generation does not produce a signature —
whatever the reason: missing document, unreadable document, or a
failure of the signing computation itself — `sign` appends nothing and
the file system is exactly as before the call. -/
theorem claim_C3_no_append_without_signature (signer : PDFSigner)
    (H : HashFn) (rand : Nat → Nat) (fs : FileSystem) (path : String)
    (hfail : ∀ sig : List Nat,
      signer.generateSignature H rand fs path ≠ .ok (some sig)) :
    (signer.sign H rand fs path).2 = fs := by
  cases hg : signer.generateSignature H rand fs path with
  | error e => rw [sign_of_generate_error signer H rand fs path e hg]
  | ok o =>
    cases o with
    | none => rw [sign_of_generate_none signer H rand fs path hg]
    | some s => exact absurd hg (hfail s)

/-- C3 witness: the statement applied at a concrete state in which
generation fails (missing document), showing the file system is
returned unchanged. -/
theorem claim_C3_witness :
    (PDFSigner.sign ⟨tinyPriv⟩ tinyHash demoRandA [] "a.pdf").2 = [] :=
  claim_C3_no_append_without_signature ⟨tinyPriv⟩ tinyHash demoRandA []
    "a.pdf" (fun _ h => Option.noConfusion (Except.ok.inj h))

/-- C4: after a successful sign-and-append over a readable document,
the call reports success, the document file holds exactly the original
bytes followed immediately by the raw signature bytes — no length
prefix, marker, or other modification — and every other file is
untouched. -/
theorem claim_C4_append_is_exact (signer : PDFSigner) (H : HashFn)
    (rand : Nat → Nat) (fs : FileSystem) (path : String)
    (content sig : List Nat)
    (hread : readFile fs path = .ok content)
    (hgen : signer.generateSignature H rand fs path = .ok (some sig)) :
    (signer.sign H rand fs path).1 = .ok () ∧
    readFile (signer.sign H rand fs path).2 path = .ok (content ++ sig) ∧
    ∀ other : String, other ≠ path →
      readFile (signer.sign H rand fs path).2 other = readFile fs other := by
  rw [sign_of_generate_some signer H rand fs path sig hgen]
  refine ⟨rfl, ?_, ?_⟩
  · exact readFile_appendFile_self fs path content sig hread
  · intro other hother
    exact readFile_appendFile_frame fs path other sig hother

set_option maxRecDepth 8000 in
/-- C4 witness: a concrete successful run over the demo document with
the tiny key: generation succeeds, the document file afterwards holds
the original bytes followed by the signature bytes, and an unrelated
file is untouched. -/
theorem claim_C4_witness :
    readFile [("doc.pdf", FileState.readable demoDoc),
        ("other.txt", FileState.readable [1, 2])] "doc.pdf" = .ok demoDoc ∧
    PDFSigner.generateSignature ⟨tinyPriv⟩ tinyHash demoRandA
        [("doc.pdf", FileState.readable demoDoc),
          ("other.txt", FileState.readable [1, 2])] "doc.pdf"
      = .ok (some tinySig) ∧
    readFile (PDFSigner.sign ⟨tinyPriv⟩ tinyHash demoRandA
        [("doc.pdf", FileState.readable demoDoc),
          ("other.txt", FileState.readable [1, 2])] "doc.pdf").2 "doc.pdf"
      = .ok (demoDoc ++ tinySig) ∧
    readFile (PDFSigner.sign ⟨tinyPriv⟩ tinyHash demoRandA
        [("doc.pdf", FileState.readable demoDoc),
          ("other.txt", FileState.readable [1, 2])] "doc.pdf").2 "other.txt"
      = readFile [("doc.pdf", FileState.readable demoDoc),
          ("other.txt", FileState.readable [1, 2])] "other.txt" := by
  refine ⟨rfl, rfl, ?_, ?_⟩
  · exact (claim_C4_append_is_exact ⟨tinyPriv⟩ tinyHash demoRandA
      [("doc.pdf", FileState.readable demoDoc),
        ("other.txt", FileState.readable [1, 2])] "doc.pdf" demoDoc tinySig
      rfl rfl).2.1
  · exact (claim_C4_append_is_exact ⟨tinyPriv⟩ tinyHash demoRandA
      [("doc.pdf", FileState.readable demoDoc),
        ("other.txt", FileState.readable [1, 2])] "doc.pdf" demoDoc tinySig
      rfl rfl).2.2 "other.txt" (by decide)

/-! ## Claim theorems: the cryptographic pipeline -/

/-- C1: for every document, every well-formed fixed-width hash, every
valid RSA key pair and every salt randomness, a signature produced by
the signing path (PSS padding with MGF1, maximum salt length, same
digest on both sides) verifies as valid under the public key. -/
theorem claim_C1_sign_then_verify_valid (H : HashFn) (hH : HashWF H)
    (priv : RSAPrivateKey) (pub : RSAPublicKey) (hk : ValidKeyPair priv pub)
    (document : List Nat) (rand : Nat → Nat) (sig : List Nat)
    (hs : rsaPssSign H priv document rand = some sig) :
    rsaPssVerify H pub document sig = true :=
  rsaPss_sign_verify H hH priv pub hk document rand sig hs

set_option maxRecDepth 8000 in
/-- C1 witness: the statement at a concrete well-formed hash, a
concrete valid key pair over the primes 5923 and 5927 and a concrete
document and salt source. -/
theorem claim_C1_witness :
    HashWF tinyHash ∧ ValidKeyPair tinyPriv tinyPub ∧
    rsaPssSign tinyHash tinyPriv demoDoc demoRandA = some tinySig ∧
    rsaPssVerify tinyHash tinyPub demoDoc tinySig = true := by
  have hwf : HashWF tinyHash := by
    refine ⟨by decide, fun m => ⟨rfl, ?_⟩⟩
    intro b hb
    simp only [tinyHash, List.mem_singleton] at hb
    subst hb
    exact Nat.mod_lt _ (by norm_num)
  have hvalid : ValidKeyPair tinyPriv tinyPub := by
    refine ⟨rfl, rfl, by decide, by decide, by decide, by decide,
      by decide, by decide, 5923, 5927, by norm_num, by norm_num,
      by norm_num, by decide, by norm_num [Nat.ModEq, tinyPriv, tinyPub],
      by norm_num [Nat.ModEq, tinyPriv, tinyPub]⟩
  exact ⟨hwf, hvalid, rfl, claim_C1_sign_then_verify_valid tinyHash hwf
    tinyPriv tinyPub hvalid demoDoc demoRandA tinySig rfl⟩

set_option maxRecDepth 10000 in
/-- C6: two signing calls over the identical key and identical document
bytes with different salt randomness produce different signature byte
strings, and each verifies as valid — computed concretely over the
real SHA-256 and a real 320-bit RSA key pair. -/
theorem claim_C6_randomised_signatures_both_verify :
    (rsaPssSign sha256HashFn demoPriv demoDoc demoRandA).isSome = true ∧
    (rsaPssSign sha256HashFn demoPriv demoDoc demoRandB).isSome = true ∧
    (rsaPssSign sha256HashFn demoPriv demoDoc demoRandA).getD [] ≠
      (rsaPssSign sha256HashFn demoPriv demoDoc demoRandB).getD [] ∧
    rsaPssVerify sha256HashFn demoPub demoDoc
      ((rsaPssSign sha256HashFn demoPriv demoDoc demoRandA).getD []) = true ∧
    rsaPssVerify sha256HashFn demoPub demoDoc
      ((rsaPssSign sha256HashFn demoPriv demoDoc demoRandB).getD []) = true := by
  decide

/-! ## Claim theorems: unlock-material derivation -/

/-- C8: the unlock material is exactly the SHA-256 digest of the UTF-8
byte encoding of the passphrase — a single application of a bare hash
with no salt and no iteration count — its output width is always 32
bytes, and equal passphrases always yield equal unlock material. -/
theorem claim_C8_unlock_material_is_sha256 (pin : String) :
    hashedPin pin = sha256 (utf8Bytes pin) ∧
    (hashedPin pin).length = 32 ∧
    ∀ pin2 : String, pin = pin2 → hashedPin pin = hashedPin pin2 :=
  ⟨rfl, sha256_length _, fun _ h => by rw [h]⟩

/-- C8 witness: the statement at the concrete PIN string `1234`. -/
theorem claim_C8_witness :
    hashedPin "1234" = sha256 (utf8Bytes "1234") ∧
    (hashedPin "1234").length = 32 ∧
    hashedPin "1234" = hashedPin "1234" :=
  ⟨(claim_C8_unlock_material_is_sha256 "1234").1,
   (claim_C8_unlock_material_is_sha256 "1234").2.1,
   (claim_C8_unlock_material_is_sha256 "1234").2.2 "1234" rfl⟩

/-- C7 witness: the darwin dispatch applied at a concrete device
state. -/
theorem claim_C7_witness :
    PenDriveFinder.findAllPenDrives "darwin" demoLinuxState [] = [] :=
  (claim_C7_darwin_returns_empty demoLinuxState []).1

/-- C9 witness: the amended characterisation applied at the concrete
state, deriving that the mounted whole-disk node of a removable disk
is reported. -/
theorem claim_C9_witness :
    "/mnt/disk" ∈ PenDriveFinder.findAllPenDrivesLinux demoLinuxState :=
  (claim_C9_linux_backend demoLinuxState "/mnt/disk").mpr
    ⟨{ deviceNode := "/dev/sdx", removableAttr := "1",
       partitionNodes := ["/dev/sdx1"] }, by decide, rfl, Or.inl rfl⟩
